import Mathlib

/-!
Shallow embedding of the `solana-contract-wallet` TypeScript client
(`src/client/wallet.ts` and the test drivers), together with the wallet
account layout declared in the test driver and the spec-modelled on-chain
authorizer.  Pubkeys are modelled as their byte buffers (`List Nat`,
32 bytes each); `Buffer` values are `List Nat`; `buffer-layout` encoding
is modelled by writing field bytes at their layout offsets into a
zero-filled buffer of the layout's span (`writeBytes`), which is exactly
what `Buffer.alloc(span)` followed by `dataLayout.encode` does; a field
whose source property is absent is skipped by `buffer-layout`, leaving
the zero fill in place.
-/

namespace ContractWallet

/-- An account reference as used by the client: `AccountMeta` from
`@solana/web3.js` — a pubkey (32-byte buffer) plus signer/writable flags. -/
structure AccountMeta where
  pubkey : List Nat
  isSigner : Bool
  isWritable : Bool
deriving DecidableEq, Repr

/-- A `TransactionInstruction` from `@solana/web3.js` as the client builds
them: a program id (pubkey buffer), an ordered account list and a data
buffer. -/
structure TransactionInstruction where
  programId : List Nat
  keys : List AccountMeta
  data : List Nat
deriving DecidableEq, Repr

/-- The current client's instruction variants (`enum Instruction` in
`src/client/wallet.ts`). -/
inductive Instruction where
  | addOwner
  | removeOwner
  | recovery
  | invoke
  | revoke
  | hello
deriving DecidableEq, Repr

/-- Tag bytes of `enum Instruction` in the current `src/client/wallet.ts`:
`AddOwner = 0` and the rest follow in declaration order. -/
def Instruction.tag : Instruction → Nat
  | .addOwner => 0
  | .removeOwner => 1
  | .recovery => 2
  | .invoke => 3
  | .revoke => 4
  | .hello => 5

/-- The earlier client revision's instruction variants (`enum Instruction`
in the older `wallet.ts`, `src/unnamed/part_002`), which has no
`Recovery`/`Revoke` entries. -/
inductive InstructionV0 where
  | addOwner
  | removeOwner
  | invoke
  | hello
deriving DecidableEq, Repr

/-- Tag bytes of the older revision's enum: `AddOwner = 0` and the rest in
declaration order, so `Invoke = 2` and `Hello = 3` there. -/
def InstructionV0.tag : InstructionV0 → Nat
  | .addOwner => 0
  | .removeOwner => 1
  | .invoke => 2
  | .hello => 3

/-- A little-endian `u16` as written by `buffer-layout`'s `u16` field
(`Buffer.writeUInt16LE`). -/
def u16le (n : Nat) : List Nat := [n % 256, n / 256 % 256]

/-- Overwrite the bytes of `buf` starting at offset `off` with `src`,
leaving the rest in place — the effect of a `buffer-layout` field encode
into an allocated buffer. -/
def writeBytes (buf : List Nat) (off : Nat) (src : List Nat) : List Nat :=
  buf.take off ++ src ++ buf.drop (off + src.length)

/-- The metadata byte of an inner account reference in
`Wallet.encodeInstruction`:
`((key.isSigner ? 1 : 0) << 1) | (key.isWritable ? 1 : 0)`. -/
def metadataByte (isSigner isWritable : Bool) : Nat :=
  Nat.lor (Nat.shiftLeft (cond isSigner 1 0) 1) (cond isWritable 1 0)

/-- The pubkey-to-index map of `Wallet.encodeInstruction`: it is built by
`keys.forEach((accountInfo, idx) => m.set(accountInfo.pubkey.toBase58(), idx))`,
so `m.set` overwrites earlier entries and a lookup returns the index of the
last occurrence of the pubkey in `keys`, or nothing when the pubkey does
not occur (`m.get` yields `undefined`). -/
def lastIdx (keys : List AccountMeta) (pk : List Nat) : Option Nat :=
  match keys with
  | [] => none
  | k :: rest =>
    match lastIdx rest pk with
    | some i => some (i + 1)
    | none => if k.pubkey = pk then some 0 else none

/-- Encoding of one inner account reference in `Wallet.encodeInstruction`:
the index of its pubkey in the outer list (one `u8`) followed by the
metadata byte.  A failed map lookup (`undefined`) or an index that does not
fit `u8` makes the JavaScript encode throw, modelled as `none`. -/
def encodeKeyRef (outer : List AccountMeta) (k : AccountMeta) : Option (List Nat) :=
  match lastIdx outer k.pubkey with
  | none => none
  | some i => if i < 256 then some [i, metadataByte k.isSigner k.isWritable] else none

/-- `Wallet.encodeInstruction(instruction, keys)`: a `u8` index of the
program id in the outer list, a little-endian `u16` count of inner account
references, one `(index, metadata)` byte pair per inner reference, then
the raw inner data bytes.  All layout fields are present in the encoded
source object, so the buffer is exactly the concatenation of the fields.
A lookup miss or an out-of-range `u8`/`u16` value throws in JavaScript,
modelled as `none`. -/
def encodeInstruction (ins : TransactionInstruction) (outer : List AccountMeta) :
    Option (List Nat) :=
  match lastIdx outer ins.programId with
  | none => none
  | some p =>
    if p < 256 ∧ ins.keys.length < 65536 then
      match ins.keys.mapM (encodeKeyRef outer) with
      | none => none
      | some refs => some (p :: (u16le ins.keys.length ++ refs.flatten ++ ins.data))
    else none

/-- Span of the AddOwner/RemoveOwner data layout:
`u8 instruction + seq(u8, 32) pubkey + u16 weight`. -/
def ownerInstructionSpan : Nat := 35

/-- Data buffer of `Wallet.createAddOwnerTransaction`: all three layout
fields (`instruction`, `pubkey`, `weight`) are present in the encoded
object, so all are written into the 35-byte zero buffer at their offsets. -/
def createAddOwnerData (pubkey : List Nat) (weight : Nat) : List Nat :=
  writeBytes
    (writeBytes
      (writeBytes (List.replicate ownerInstructionSpan 0) 0 [Instruction.tag .addOwner])
      1 pubkey)
    33 (u16le weight)

/-- Data buffer of `Wallet.createRemoveOwnerTransaction`: the layout
declares `u8 instruction + seq(u8, 32) pubkey + u16 weight` (span 35), but
the encoded object carries no `weight` property, so `buffer-layout` skips
that field and the two weight bytes keep the `Buffer.alloc` zero fill. -/
def createRemoveOwnerData (pubkey : List Nat) : List Nat :=
  writeBytes
    (writeBytes (List.replicate ownerInstructionSpan 0) 0 [Instruction.tag .removeOwner])
    1 pubkey

/-- Account list of `Wallet.createAddOwnerTransaction`: the wallet account
(writable, non-signer) then one non-writable signer entry per signer. -/
def ownerChangeKeys (walletPubkey : List Nat) (signers : List (List Nat)) :
    List AccountMeta :=
  ⟨walletPubkey, false, true⟩ :: signers.map fun s => ⟨s, true, false⟩

/-- `Wallet.createAddOwnerTransaction` of the current client. -/
def createAddOwnerTransaction (programId walletPubkey pubkey : List Nat)
    (weight : Nat) (signers : List (List Nat)) : TransactionInstruction :=
  { programId := programId
    keys := ownerChangeKeys walletPubkey signers
    data := createAddOwnerData pubkey weight }

/-- `Wallet.createRemoveOwnerTransaction` of the current client. -/
def createRemoveOwnerTransaction (programId walletPubkey pubkey : List Nat)
    (signers : List (List Nat)) : TransactionInstruction :=
  { programId := programId
    keys := ownerChangeKeys walletPubkey signers
    data := createRemoveOwnerData pubkey }

/-- `Wallet.createHelloTransaction` of the current client: a single tag
byte as data, wallet account first then the signers. -/
def createHelloTransaction (programId walletPubkey : List Nat)
    (signers : List (List Nat)) : TransactionInstruction :=
  { programId := programId
    keys := ⟨walletPubkey, false, true⟩ :: signers.map fun s => ⟨s, true, false⟩
    data := [Instruction.tag .hello] }

/-- The outer account list built by `Wallet.createInvokeTransaction` of the
current client: wallet account (writable, non-signer), derived program
address (writable, non-signer), fee payer (signer, writable), the signer
accounts (signers, non-writable), the inner instruction's program id
(non-signer, non-writable), then the inner instruction's own account list
with every entry whose pubkey equals the derived address filtered out.
The derived address (`PublicKey.createProgramAddress([walletPubkey], programId)`,
an external one-way derivation) is passed in as an argument. -/
def invokeKeys (walletPubkey derivedPubkey feePayerPubkey : List Nat)
    (internal : TransactionInstruction) (signers : List (List Nat)) :
    List AccountMeta :=
  ⟨walletPubkey, false, true⟩ ::
  ⟨derivedPubkey, false, true⟩ ::
  ⟨feePayerPubkey, true, true⟩ ::
  ((signers.map fun s => ⟨s, true, false⟩) ++
    [⟨internal.programId, false, false⟩] ++
    internal.keys.filter fun k => decide (k.pubkey ≠ derivedPubkey))

/-- `Wallet.createInvokeTransaction` of the current client: builds the
outer account list, re-encodes the inner instruction against it, and wraps
the envelope behind the `Invoke` tag byte (both layout fields present, so
the data buffer is the tag followed by the envelope). -/
def createInvokeTransaction (programId walletPubkey feePayerPubkey derivedPubkey : List Nat)
    (internal : TransactionInstruction) (signers : List (List Nat)) :
    Option TransactionInstruction :=
  match encodeInstruction internal
      (invokeKeys walletPubkey derivedPubkey feePayerPubkey internal signers) with
  | none => none
  | some inner =>
    some { programId := programId
           keys := invokeKeys walletPubkey derivedPubkey feePayerPubkey internal signers
           data := Instruction.tag .invoke :: inner }

/-- Modelled from the spec: the wallet account's state discriminant (the
on-chain Rust program is not among the client sources) — "state | 1 byte |
0 = Uninitialized, 1 = Initialized". -/
inductive WalletState where
  | uninitialized
  | initialized
deriving DecidableEq, Repr

/-- The state byte: 0 = Uninitialized, 1 = Initialized. -/
def WalletState.toByte : WalletState → Nat
  | .uninitialized => 0
  | .initialized => 1

/-- One entry of the wallet's owner table: a 32-byte pubkey and a `u16`
weight, as declared in `walletAccountDataLayout`. -/
structure OwnerEntry where
  pubkey : List Nat
  weight : Nat
deriving DecidableEq, Repr

/-- Serialized form of one owner entry per `walletAccountDataLayout`:
32 pubkey bytes then the weight as little-endian `u16` (34 bytes). -/
def encodeOwnerEntry (o : OwnerEntry) : List Nat := o.pubkey ++ u16le o.weight

/-- Owner-table capacity of the current deployment's layout
(`walletAccountDataLayout` in the current test driver uses a 101-element
owner sequence). -/
def walletCapacity : Nat := 101

/-- The wallet account's logical contents: the state discriminant and the
full fixed-capacity owner table. -/
structure WalletAccount where
  state : WalletState
  owners : List OwnerEntry
deriving DecidableEq, Repr

/-- Span of `walletAccountDataLayout` for capacity `C`: one state byte plus
`C` owner structs of `32 + 2` bytes each. -/
def walletAccountSpan (C : Nat) : Nat := 1 + (32 + 2) * C

/-- Serialization of the wallet account per the current
`walletAccountDataLayout` (`u8 state` then a fixed-count sequence of owner
structs, no other fields). -/
def walletAccountEncode (w : WalletAccount) : List Nat :=
  w.state.toByte :: (w.owners.map encodeOwnerEntry).flatten

/-- Modelled from the spec: the fixed authorization threshold of the
on-chain weight-threshold authorizer (the Rust program is not among the
client sources) — "THRESHOLD (1000)". -/
def THRESHOLD : Nat := 1000

/-- Modelled from the spec: the summed signer weight of the on-chain
authorizer — "compute totalWeight = Σ weight(o) over owners o whose pubkey
appears among the flagged signer accounts". -/
def totalWeight (owners : List OwnerEntry) (signers : List (List Nat)) : Nat :=
  ((owners.filter fun o => decide (o.pubkey ∈ signers)).map OwnerEntry.weight).sum

/-- Modelled from the spec: the on-chain authorization verdict —
"Authorization succeeds iff totalWeight >= THRESHOLD (1000)". -/
def authorize (owners : List OwnerEntry) (signers : List (List Nat)) : Bool :=
  decide (THRESHOLD ≤ totalWeight owners signers)

/-- A concrete 32-byte pubkey buffer used by witnesses and
counterexamples. -/
def pk (b : Nat) : List Nat := List.replicate 32 b

theorem writeBytes_eq (pre mid post src : List Nat) (off : Nat)
    (hoff : pre.length = off) (hmid : mid.length = src.length) :
    writeBytes (pre ++ mid ++ post) off src = pre ++ src ++ post := by
  subst hoff
  simp only [writeBytes, List.append_assoc]
  congr 1
  · exact List.take_left pre _
  congr 1
  rw [← hmid, ← List.drop_drop, List.drop_left, List.drop_left]

theorem writeBytes_head? (t : Nat) (buf src : List Nat) (off : Nat) (hoff : 0 < off) :
    (writeBytes (t :: buf) off src).head? = some t := by
  unfold writeBytes
  cases off with
  | zero => omega
  | succ n => simp

/-- The data buffer of `createAddOwnerTransaction`, spelled out. -/
theorem createAddOwnerData_eq (pubkey : List Nat) (weight : Nat)
    (hlen : pubkey.length = 32) :
    createAddOwnerData pubkey weight =
      Instruction.tag .addOwner :: (pubkey ++ u16le weight) := by
  unfold createAddOwnerData
  have h0 : List.replicate ownerInstructionSpan (0 : Nat) =
      ([] : List Nat) ++ [0] ++ List.replicate 34 0 := by
    simp [ownerInstructionSpan, List.replicate_succ]
  rw [h0, writeBytes_eq ([] : List Nat) [0] (List.replicate 34 0)
    [Instruction.tag .addOwner] 0 rfl rfl]
  have h1 : ([] : List Nat) ++ [Instruction.tag .addOwner] ++ List.replicate 34 0 =
      [Instruction.tag .addOwner] ++ List.replicate 32 0 ++ List.replicate 2 0 := by
    simp [← List.replicate_add]
  rw [h1, writeBytes_eq [Instruction.tag .addOwner] (List.replicate 32 0)
    (List.replicate 2 0) pubkey 1 rfl (by simp [hlen])]
  have h2 : [Instruction.tag .addOwner] ++ pubkey ++ List.replicate 2 0 =
      ([Instruction.tag .addOwner] ++ pubkey) ++ List.replicate 2 0 ++ [] := by
    simp
  rw [h2, writeBytes_eq ([Instruction.tag .addOwner] ++ pubkey)
    (List.replicate 2 0) [] (u16le weight) 33 (by simp [hlen]) (by simp [u16le])]
  simp

/-- The data buffer of `createRemoveOwnerTransaction`, spelled out: the
`weight` field is never written, so its two bytes stay zero. -/
theorem createRemoveOwnerData_eq (pubkey : List Nat) (hlen : pubkey.length = 32) :
    createRemoveOwnerData pubkey =
      Instruction.tag .removeOwner :: (pubkey ++ [0, 0]) := by
  unfold createRemoveOwnerData
  have h0 : List.replicate ownerInstructionSpan (0 : Nat) =
      ([] : List Nat) ++ [0] ++ List.replicate 34 0 := by
    simp [ownerInstructionSpan, List.replicate_succ]
  rw [h0, writeBytes_eq ([] : List Nat) [0] (List.replicate 34 0)
    [Instruction.tag .removeOwner] 0 rfl rfl]
  have h1 : ([] : List Nat) ++ [Instruction.tag .removeOwner] ++ List.replicate 34 0 =
      [Instruction.tag .removeOwner] ++ List.replicate 32 0 ++ List.replicate 2 0 := by
    simp [← List.replicate_add]
  rw [h1, writeBytes_eq [Instruction.tag .removeOwner] (List.replicate 32 0)
    (List.replicate 2 0) pubkey 1 rfl (by simp [hlen])]
  have h2 : List.replicate 2 (0 : Nat) = [0, 0] := rfl
  simp [h2]

/-- C5: the AddOwner instruction data is exactly 35 bytes — the AddOwner
tag byte (0), the 32-byte owner pubkey, then the weight as little-endian
`u16` — and it is the data the built transaction carries. -/
theorem addOwner_data_bytes (pubkey : List Nat) (weight : Nat)
    (hlen : pubkey.length = 32) (hw : weight < 65536) :
    createAddOwnerData pubkey weight =
      Instruction.tag .addOwner :: (pubkey ++ [weight % 256, weight / 256])
    ∧ (createAddOwnerData pubkey weight).length = 35
    ∧ Instruction.tag .addOwner = 0
    ∧ ∀ pid w signers,
        (createAddOwnerTransaction pid w pubkey weight signers).data =
          createAddOwnerData pubkey weight := by
  have hdiv : weight / 256 < 256 := by
    rw [Nat.div_lt_iff_lt_mul (by norm_num)]
    omega
  have he := createAddOwnerData_eq pubkey weight hlen
  have hu : u16le weight = [weight % 256, weight / 256] := by
    simp [u16le, Nat.mod_eq_of_lt hdiv]
  refine ⟨by rw [he, hu], ?_, rfl, fun pid w signers => rfl⟩
  rw [he, hu]
  simp [hlen]

/-- Witness for C5 at a concrete pubkey and weight. -/
theorem addOwner_data_bytes_witness :
    (pk 7).length = 32 ∧ (1000 : Nat) < 65536 ∧
      (createAddOwnerData (pk 7) 1000).length = 35 :=
  ⟨by decide, by decide, (addOwner_data_bytes (pk 7) 1000 (by decide) (by decide)).2.1⟩

/-- C6 counterexample: at a concrete 32-byte pubkey, the RemoveOwner data
buffer is 35 bytes long, not 33 — the layout's `weight` field occupies two
trailing bytes even though it is never encoded. -/
theorem removeOwner_data_length_cex :
    (createRemoveOwnerData (pk 7)).length = 35 ∧ (35 : Nat) ≠ 33 := by
  constructor
  · decide
  · decide

/-- C6 (amended): the RemoveOwner instruction data is 35 bytes — the
RemoveOwner tag byte (1), the 32-byte owner pubkey, then two zero bytes:
the layout's `weight` field is left at its `Buffer.alloc` zero fill
because the encode omits it. -/
theorem removeOwner_data_bytes (pubkey : List Nat) (hlen : pubkey.length = 32) :
    createRemoveOwnerData pubkey =
      Instruction.tag .removeOwner :: (pubkey ++ [0, 0])
    ∧ (createRemoveOwnerData pubkey).length = 35
    ∧ Instruction.tag .removeOwner = 1
    ∧ ∀ pid w signers,
        (createRemoveOwnerTransaction pid w pubkey signers).data =
          createRemoveOwnerData pubkey := by
  have he := createRemoveOwnerData_eq pubkey hlen
  refine ⟨he, ?_, rfl, fun pid w signers => rfl⟩
  rw [he]
  simp [hlen]

/-- Witness for the amended C6 at a concrete pubkey. -/
theorem removeOwner_data_bytes_witness :
    (pk 8).length = 32 ∧
      createRemoveOwnerData (pk 8) =
        Instruction.tag .removeOwner :: (pk 8 ++ [0, 0]) :=
  ⟨by decide, (removeOwner_data_bytes (pk 8) (by decide)).1⟩

/-- C3 counterexample: in the current client the Invoke instruction's
first data byte is 3 (not 2) and the Hello instruction's is 5 (not 3). -/
theorem instruction_tag_bytes_cex :
    (createInvokeTransaction (pk 9) (pk 1) (pk 2) (pk 3)
        ⟨pk 4, [], []⟩ []).map (fun tx => tx.data.head?) = some (some 3)
    ∧ (3 : Nat) ≠ 2
    ∧ (createHelloTransaction (pk 9) (pk 1) []).data.head? = some 5
    ∧ (5 : Nat) ≠ 3 := by
  refine ⟨by decide, by decide, by decide, by decide⟩

/-- C3 (amended): in the current client the first data byte of every built
instruction is its enum tag, with `0 = AddOwner`, `1 = RemoveOwner`,
`3 = Invoke`, `5 = Hello` (`2 = Recovery` and `4 = Revoke` are reserved);
the earlier client revision's enum assigns `0 = AddOwner`,
`1 = RemoveOwner`, `2 = Invoke`, `3 = Hello`. -/
theorem instruction_tag_bytes (pid w f d pubkey : List Nat) (weight : Nat)
    (signers : List (List Nat)) (internal : TransactionInstruction) :
    (createAddOwnerTransaction pid w pubkey weight signers).data.head? =
        some (Instruction.tag .addOwner)
    ∧ (createRemoveOwnerTransaction pid w pubkey signers).data.head? =
        some (Instruction.tag .removeOwner)
    ∧ (∀ tx, createInvokeTransaction pid w f d internal signers = some tx →
        tx.data.head? = some (Instruction.tag .invoke))
    ∧ (createHelloTransaction pid w signers).data.head? =
        some (Instruction.tag .hello)
    ∧ Instruction.tag .addOwner = 0 ∧ Instruction.tag .removeOwner = 1
    ∧ Instruction.tag .invoke = 3 ∧ Instruction.tag .hello = 5
    ∧ InstructionV0.tag .addOwner = 0 ∧ InstructionV0.tag .removeOwner = 1
    ∧ InstructionV0.tag .invoke = 2 ∧ InstructionV0.tag .hello = 3 := by
  have haddbuf : createAddOwnerData pubkey weight =
      writeBytes (writeBytes (Instruction.tag .addOwner :: List.replicate 34 0)
        1 pubkey) 33 (u16le weight) := by
    simp [createAddOwnerData, ownerInstructionSpan, writeBytes, List.replicate_succ]
  have hadd : (createAddOwnerData pubkey weight).head? =
      some (Instruction.tag .addOwner) := by
    rw [haddbuf]
    rcases hh : writeBytes (Instruction.tag .addOwner :: List.replicate 34 0) 1 pubkey
      with _ | ⟨b, rest⟩
    · have := congrArg List.head? hh
      rw [writeBytes_head? _ _ _ 1 (by omega)] at this
      simp at this
    · have := congrArg List.head? hh
      rw [writeBytes_head? _ _ _ 1 (by omega)] at this
      simp at this
      rw [← this]
      exact writeBytes_head? _ _ _ 33 (by omega)
  have hrembuf : createRemoveOwnerData pubkey =
      writeBytes (Instruction.tag .removeOwner :: List.replicate 34 0) 1 pubkey := by
    simp [createRemoveOwnerData, ownerInstructionSpan, writeBytes, List.replicate_succ]
  have hrem : (createRemoveOwnerData pubkey).head? =
      some (Instruction.tag .removeOwner) := by
    rw [hrembuf]
    exact writeBytes_head? _ _ _ 1 (by omega)
  refine ⟨hadd, hrem, ?_, rfl, rfl, rfl, rfl, rfl, rfl, rfl, rfl, rfl⟩
  intro tx htx
  unfold createInvokeTransaction at htx
  rcases he : encodeInstruction internal
      (invokeKeys w d f internal signers) with _ | inner
  · rw [he] at htx
    simp at htx
  · rw [he] at htx
    simp at htx
    rw [← htx]
    rfl

/-- Witness for the amended C3 at concrete inputs. -/
theorem instruction_tag_bytes_witness :
    (createAddOwnerTransaction (pk 9) (pk 1) (pk 4) 1000 []).data.head? =
      some (Instruction.tag .addOwner) :=
  (instruction_tag_bytes (pk 9) (pk 1) (pk 2) (pk 3) (pk 4) 1000 []
    ⟨pk 4, [], []⟩).1

/-- C9: `Wallet.encodeInstruction` is deterministic — equal logical inner
instructions and equal outer account lists give identical byte buffers. -/
theorem encodeInstruction_deterministic (i1 i2 : TransactionInstruction)
    (o1 o2 : List AccountMeta)
    (hp : i1.programId = i2.programId) (hk : i1.keys = i2.keys)
    (hd : i1.data = i2.data) (ho : o1 = o2) :
    encodeInstruction i1 o1 = encodeInstruction i2 o2 := by
  obtain ⟨p1, k1, d1⟩ := i1
  obtain ⟨p2, k2, d2⟩ := i2
  simp only at hp hk hd
  subst hp
  subst hk
  subst hd
  subst ho
  rfl

/-- Witness for C9 at concrete equal inputs. -/
theorem encodeInstruction_deterministic_witness :
    encodeInstruction ⟨pk 1, [], [2]⟩ [⟨pk 1, false, true⟩] =
      encodeInstruction ⟨pk 1, [], [2]⟩ [⟨pk 1, false, true⟩] :=
  encodeInstruction_deterministic ⟨pk 1, [], [2]⟩ ⟨pk 1, [], [2]⟩
    [⟨pk 1, false, true⟩] [⟨pk 1, false, true⟩] rfl rfl rfl rfl

theorem lastIdx_eq_none_iff (keys : List AccountMeta) (pkx : List Nat) :
    lastIdx keys pkx = none ↔ pkx ∉ keys.map AccountMeta.pubkey := by
  induction keys with
  | nil => simp [lastIdx]
  | cons k rest ih =>
    simp only [lastIdx, List.map_cons, List.mem_cons]
    cases hr : lastIdx rest pkx with
    | some i =>
      have hmem : pkx ∈ rest.map AccountMeta.pubkey := by
        by_contra hc
        rw [← ih] at hc
        rw [hr] at hc
        exact Option.noConfusion hc
      simp [hmem]
    | none =>
      have hnm : pkx ∉ rest.map AccountMeta.pubkey := ih.mp hr
      by_cases hk : k.pubkey = pkx
      · simp [hk, hnm]
      · simp [hk, hnm]
        exact fun h => hk h.symm

/-- A successful lookup returns an index of the pubkey, and the index of
its last occurrence in the outer list. -/
theorem lastIdx_isLast (keys : List AccountMeta) (pkx : List Nat) (i : Nat)
    (h : lastIdx keys pkx = some i) :
    (keys.map AccountMeta.pubkey)[i]? = some pkx ∧
      ∀ j, i < j → (keys.map AccountMeta.pubkey)[j]? ≠ some pkx := by
  induction keys generalizing i with
  | nil => simp [lastIdx] at h
  | cons k rest ih =>
    simp only [lastIdx] at h
    cases hr : lastIdx rest pkx with
    | some i0 =>
      rw [hr] at h
      simp only [Option.some.injEq] at h
      subst h
      obtain ⟨h1, h2⟩ := ih i0 hr
      refine ⟨by simpa using h1, ?_⟩
      intro j hj
      match j, hj with
      | j0 + 1, hj =>
        simp only [List.map_cons, List.getElem?_cons_succ]
        exact h2 j0 (by omega)
    | none =>
      rw [hr] at h
      by_cases hk : k.pubkey = pkx
      · rw [if_pos hk] at h
        injection h with h
        subst h
        refine ⟨by simp [hk], ?_⟩
        intro j hj
        match j, hj with
        | j0 + 1, _ =>
          simp only [List.map_cons, List.getElem?_cons_succ]
          intro hc
          obtain ⟨hlt, hEq⟩ := List.getElem?_eq_some_iff.mp hc
          have : pkx ∈ rest.map AccountMeta.pubkey := hEq ▸ List.getElem_mem hlt
          exact (lastIdx_eq_none_iff rest pkx).mp hr this
      · simp [hk] at h

theorem lastIdx_of_mem (keys : List AccountMeta) (pkx : List Nat)
    (h : pkx ∈ keys.map AccountMeta.pubkey) : ∃ i, lastIdx keys pkx = some i := by
  cases hl : lastIdx keys pkx with
  | none => exact absurd h ((lastIdx_eq_none_iff keys pkx).mp hl)
  | some i => exact ⟨i, rfl⟩

theorem lastIdx_lt_length (keys : List AccountMeta) (pkx : List Nat) (i : Nat)
    (h : lastIdx keys pkx = some i) : i < keys.length := by
  have h1 := (lastIdx_isLast keys pkx i h).1
  have := List.getElem?_eq_some_iff.mp h1
  obtain ⟨hlt, _⟩ := this
  simpa using hlt

/-- Successful elementwise lookups make the reference list of
`encodeInstruction` succeed with the corresponding index/metadata pairs. -/
theorem mapM_encodeKeyRef_of_idxs (outer : List AccountMeta)
    (ks : List AccountMeta) (idxs : List Nat)
    (hidx : ks.mapM (fun k => lastIdx outer k.pubkey) = some idxs)
    (hsmall : ∀ i ∈ idxs, i < 256) :
    ks.mapM (encodeKeyRef outer) =
      some (List.zipWith (fun i k => [i, metadataByte k.isSigner k.isWritable])
        idxs ks) := by
  induction ks generalizing idxs with
  | nil =>
    simp only [List.mapM_nil, pure, Option.some.injEq] at hidx
    subst hidx
    rfl
  | cons k rest ih =>
    rw [List.mapM_cons] at hidx
    rw [List.mapM_cons]
    rcases hk : lastIdx outer k.pubkey with _ | i
    · rw [hk] at hidx
      simp at hidx
    · rw [hk] at hidx
      rcases hrest : rest.mapM (fun k => lastIdx outer k.pubkey) with _ | is
      · rw [hrest] at hidx
        simp at hidx
      · rw [hrest] at hidx
        simp only [Option.bind_eq_bind, Option.some_bind, pure,
          Option.some.injEq] at hidx
        subst hidx
        have hi : i < 256 := hsmall i (by simp)
        have hrec := ih is hrest (fun j hj => hsmall j (by simp [hj]))
        simp only [encodeKeyRef, hk, if_pos hi, Option.bind_eq_bind,
          Option.some_bind, hrec, List.zipWith_cons_cons]
        rfl

/-- A reference whose pubkey is absent from the outer list makes the
reference list of `encodeInstruction` fail. -/
theorem mapM_encodeKeyRef_none (outer : List AccountMeta)
    (ks : List AccountMeta) (k : AccountMeta) (hk : k ∈ ks)
    (h : lastIdx outer k.pubkey = none) :
    ks.mapM (encodeKeyRef outer) = none := by
  induction ks with
  | nil => simp at hk
  | cons a rest ih =>
    rw [List.mapM_cons]
    rcases List.mem_cons.mp hk with rfl | hmem
    · simp [encodeKeyRef, h]
    · rcases ha : encodeKeyRef outer a with _ | v
      · rfl
      · rw [ih hmem]
        rfl

/-- A successful reference list means every pubkey was found at an index
below 256. -/
theorem mapM_encodeKeyRef_some (outer : List AccountMeta)
    (ks : List AccountMeta) (refs : List (List Nat))
    (h : ks.mapM (encodeKeyRef outer) = some refs) :
    ∀ k ∈ ks, ∃ i, lastIdx outer k.pubkey = some i ∧ i < 256 := by
  induction ks generalizing refs with
  | nil => simp
  | cons a rest ih =>
    rw [List.mapM_cons] at h
    rcases ha : encodeKeyRef outer a with _ | v
    · rw [ha] at h
      simp at h
    · rw [ha] at h
      rcases hrest : rest.mapM (encodeKeyRef outer) with _ | vs
      · rw [hrest] at h
        simp at h
      · intro k hk
        rcases List.mem_cons.mp hk with rfl | hmem
        · rcases hl : lastIdx outer k.pubkey with _ | i
          · simp only [encodeKeyRef, hl] at ha
            exact Option.noConfusion ha
          · simp only [encodeKeyRef, hl] at ha
            by_cases hi : i < 256
            · exact ⟨i, rfl, hi⟩
            · rw [if_neg hi] at ha
              exact Option.noConfusion ha
        · exact ih vs hrest k hmem

theorem mapM_lastIdx_forall2 (outer : List AccountMeta) (ks : List AccountMeta)
    (idxs : List Nat)
    (hidx : ks.mapM (fun k => lastIdx outer k.pubkey) = some idxs) :
    List.Forall₂ (fun i k => lastIdx outer (AccountMeta.pubkey k) = some i)
      idxs ks := by
  induction ks generalizing idxs with
  | nil =>
    simp only [List.mapM_nil, pure, Option.some.injEq] at hidx
    subst hidx
    exact List.Forall₂.nil
  | cons a rest ih =>
    rw [List.mapM_cons] at hidx
    rcases ha : lastIdx outer a.pubkey with _ | i
    · rw [ha] at hidx
      simp at hidx
    · rw [ha] at hidx
      rcases hrest : rest.mapM (fun k => lastIdx outer k.pubkey) with _ | is
      · rw [hrest] at hidx
        simp at hidx
      · rw [hrest] at hidx
        simp only [Option.bind_eq_bind, Option.some_bind, pure,
          Option.some.injEq] at hidx
        subst hidx
        exact List.Forall₂.cons ha (ih is hrest)

theorem mapM_encodeKeyRef_isSome (outer : List AccountMeta)
    (ks : List AccountMeta)
    (h : ∀ k ∈ ks, ∃ i, lastIdx outer k.pubkey = some i ∧ i < 256) :
    ∃ refs, ks.mapM (encodeKeyRef outer) = some refs := by
  induction ks with
  | nil => exact ⟨[], rfl⟩
  | cons a rest ih =>
    obtain ⟨i, hi, hi256⟩ := h a (by simp)
    obtain ⟨refs, hrefs⟩ := ih (fun k hk => h k (by simp [hk]))
    refine ⟨[i, metadataByte a.isSigner a.isWritable] :: refs, ?_⟩
    have ha : encodeKeyRef outer a =
        some [i, metadataByte a.isSigner a.isWritable] := by
      simp [encodeKeyRef, hi, hi256]
    rw [List.mapM_cons, ha, hrefs]
    rfl

/-- C1: when the program id and every inner pubkey occur in the outer list
(at `u8`-sized indices, with a `u16`-sized reference count),
`Wallet.encodeInstruction` produces exactly one program-id index byte, the
little-endian `u16` reference count, an index byte and a metadata byte
(bit 1 = isSigner, bit 0 = isWritable) per inner reference in order, then
the raw inner data bytes; each emitted index is an index of the matching
pubkey in the outer list. -/
theorem encodeInstruction_wire_format
    (ins : TransactionInstruction) (outer : List AccountMeta)
    (p : Nat) (idxs : List Nat)
    (hp : lastIdx outer ins.programId = some p)
    (hp256 : p < 256)
    (hn : ins.keys.length < 65536)
    (hidx : ins.keys.mapM (fun k => lastIdx outer k.pubkey) = some idxs)
    (hsmall : ∀ i ∈ idxs, i < 256) :
    encodeInstruction ins outer =
      some (p :: (u16le ins.keys.length ++
        (List.zipWith (fun i k => [i, metadataByte k.isSigner k.isWritable])
          idxs ins.keys).flatten ++ ins.data))
    ∧ u16le ins.keys.length =
        [ins.keys.length % 256, ins.keys.length / 256 % 256]
    ∧ (outer.map AccountMeta.pubkey)[p]? = some ins.programId
    ∧ List.Forall₂
        (fun i k => (outer.map AccountMeta.pubkey)[i]? =
          some (AccountMeta.pubkey k)) idxs ins.keys
    ∧ ∀ s w : Bool, metadataByte s w = 2 * cond s 1 0 + cond w 1 0
        ∧ (metadataByte s w).testBit 1 = s
        ∧ (metadataByte s w).testBit 0 = w := by
  have hmap := mapM_encodeKeyRef_of_idxs outer ins.keys idxs hidx hsmall
  refine ⟨?_, rfl, (lastIdx_isLast outer ins.programId p hp).1, ?_, ?_⟩
  · unfold encodeInstruction
    simp only [hp]
    rw [if_pos (And.intro hp256 hn)]
    simp only [hmap]
  · refine List.Forall₂.imp ?_ (mapM_lastIdx_forall2 outer ins.keys idxs hidx)
    intro i k h
    exact (lastIdx_isLast outer k.pubkey i h).1
  · intro s w
    cases s <;> cases w <;> exact ⟨rfl, by decide, by decide⟩

/-- Witness for C1 at a concrete inner instruction and outer list. -/
theorem encodeInstruction_wire_format_witness :
    lastIdx [⟨pk 1, false, true⟩, ⟨pk 2, true, false⟩] (pk 1) = some 0 ∧
      encodeInstruction ⟨pk 1, [⟨pk 2, true, true⟩], [7]⟩
        [⟨pk 1, false, true⟩, ⟨pk 2, true, false⟩] = some [0, 1, 0, 1, 3, 7] := by
  constructor
  · decide
  · have h := (encodeInstruction_wire_format ⟨pk 1, [⟨pk 2, true, true⟩], [7]⟩
      [⟨pk 1, false, true⟩, ⟨pk 2, true, false⟩] 0 [1] (by decide) (by decide)
      (by decide) (by decide) (by decide)).1
    rw [h]
    decide

/-- C10: `Wallet.encodeInstruction` yields a buffer exactly when the
program id and every inner pubkey occur in the outer list at `u8`-sized
indices (with a `u16`-sized reference count); the map lookup yields
nothing for an absent pubkey, a lookup result is always the index of the
pubkey's last occurrence in the outer list, and an outer list of at most
256 entries makes every index fit one unsigned byte. -/
theorem encodeInstruction_defined_iff (ins : TransactionInstruction)
    (outer : List AccountMeta) :
    ((∃ b, encodeInstruction ins outer = some b) ↔
      ((∃ p, lastIdx outer ins.programId = some p ∧ p < 256)
        ∧ ins.keys.length < 65536
        ∧ ∀ k ∈ ins.keys, ∃ i, lastIdx outer k.pubkey = some i ∧ i < 256))
    ∧ (∀ pkx, lastIdx outer pkx = none ↔ pkx ∉ outer.map AccountMeta.pubkey)
    ∧ (∀ pkx i, lastIdx outer pkx = some i →
        (outer.map AccountMeta.pubkey)[i]? = some pkx ∧
          ∀ j, i < j → (outer.map AccountMeta.pubkey)[j]? ≠ some pkx)
    ∧ (outer.length ≤ 256 → ∀ pkx i, lastIdx outer pkx = some i → i < 256) := by
  refine ⟨⟨?_, ?_⟩, fun pkx => lastIdx_eq_none_iff outer pkx,
    fun pkx i h => lastIdx_isLast outer pkx i h,
    fun houter pkx i h =>
      Nat.lt_of_lt_of_le (lastIdx_lt_length outer pkx i h) houter⟩
  · rintro ⟨b, hb⟩
    unfold encodeInstruction at hb
    rcases hpid : lastIdx outer ins.programId with _ | p
    · rw [hpid] at hb
      simp at hb
    · rw [hpid] at hb
      simp only at hb
      by_cases hc : p < 256 ∧ ins.keys.length < 65536
      · rw [if_pos hc] at hb
        rcases hm : ins.keys.mapM (encodeKeyRef outer) with _ | refs
        · rw [hm] at hb
          simp at hb
        · exact ⟨⟨p, rfl, hc.1⟩, hc.2, mapM_encodeKeyRef_some outer ins.keys refs hm⟩
      · rw [if_neg hc] at hb
        simp at hb
  · rintro ⟨⟨p, hp, hp256⟩, hn, hks⟩
    obtain ⟨refs, hrefs⟩ := mapM_encodeKeyRef_isSome outer ins.keys hks
    refine ⟨p :: (u16le ins.keys.length ++ refs.flatten ++ ins.data), ?_⟩
    unfold encodeInstruction
    simp only [hp]
    rw [if_pos (And.intro hp256 hn)]
    simp only [hrefs]

theorem lastIdx_cons (k : AccountMeta) (rest : List AccountMeta) (pkx : List Nat) :
    lastIdx (k :: rest) pkx =
      match lastIdx rest pkx with
      | some i => some (i + 1)
      | none => if k.pubkey = pkx then some 0 else none := rfl

/-- The tail of the outer account list of an Invoke is the inner account
list with the derived-address entries filtered out. -/
theorem invokeKeys_drop_eq (w d f : List Nat) (internal : TransactionInstruction)
    (signers : List (List Nat)) :
    (invokeKeys w d f internal signers).drop (4 + signers.length) =
      internal.keys.filter (fun k => decide (k.pubkey ≠ d)) := by
  have h4 : 4 + signers.length = ((1 + signers.length) + 1 + 1 + 1) := by omega
  unfold invokeKeys
  rw [h4]
  simp only [List.drop_succ_cons]
  have hlen : ((signers.map fun s => (⟨s, true, false⟩ : AccountMeta)) ++
      [(⟨internal.programId, false, false⟩ : AccountMeta)]).length =
      1 + signers.length := by
    simp [Nat.add_comm]
  rw [← hlen]
  exact List.drop_left _ _

/-- C2: the outer account list of every Invoke built by the client starts
with the wallet account (writable, non-signer), then the derived signing
address (writable, non-signer), then a block of accounts each flagged as
signer (the fee payer followed by the owner signers), then the target
program id (non-signer, non-writable), then the inner instruction's own
account list with every derived-address entry removed; the built
transaction carries exactly this list. -/
theorem invoke_outer_account_order (pid w f d : List Nat)
    (internal : TransactionInstruction) (signers : List (List Nat)) :
    (invokeKeys w d f internal signers)[0]? = some ⟨w, false, true⟩
    ∧ (invokeKeys w d f internal signers)[1]? = some ⟨d, false, true⟩
    ∧ (∀ i, 2 ≤ i → i < 3 + signers.length →
        ∃ k, (invokeKeys w d f internal signers)[i]? = some k ∧
          k.isSigner = true)
    ∧ (invokeKeys w d f internal signers)[3 + signers.length]? =
        some ⟨internal.programId, false, false⟩
    ∧ (invokeKeys w d f internal signers).drop (4 + signers.length) =
        internal.keys.filter (fun k => decide (k.pubkey ≠ d))
    ∧ (∀ k ∈ (invokeKeys w d f internal signers).drop (4 + signers.length),
        k.pubkey ≠ d ∧ k ∈ internal.keys)
    ∧ (∀ tx, createInvokeTransaction pid w f d internal signers = some tx →
        tx.keys = invokeKeys w d f internal signers) := by
  refine ⟨by simp [invokeKeys], by simp [invokeKeys], ?_, ?_,
    invokeKeys_drop_eq w d f internal signers, ?_, ?_⟩
  · intro i h2 h3
    unfold invokeKeys
    rcases i with _ | i
    · omega
    rcases i with _ | i
    · omega
    rcases i with _ | j
    · refine ⟨⟨f, true, true⟩, ?_, rfl⟩
      simp
    · have hj : j < signers.length := by omega
      refine ⟨⟨signers[j], true, false⟩, ?_, rfl⟩
      simp only [List.getElem?_cons_succ, List.append_assoc]
      rw [List.getElem?_append]
      rw [if_pos (by simpa using hj)]
      simp [List.getElem?_eq_getElem hj]
  · unfold invokeKeys
    have h3 : 3 + signers.length = signers.length + 1 + 1 + 1 := by omega
    rw [h3]
    simp only [List.getElem?_cons_succ, List.append_assoc]
    rw [List.getElem?_append]
    rw [if_neg (by simp)]
    simp
  · intro k hk
    rw [invokeKeys_drop_eq] at hk
    obtain ⟨hmem, hdec⟩ := List.mem_filter.mp hk
    exact ⟨of_decide_eq_true hdec, hmem⟩
  · intro tx htx
    unfold createInvokeTransaction at htx
    rcases he : encodeInstruction internal (invokeKeys w d f internal signers)
      with _ | inner
    · rw [he] at htx
      simp at htx
    · rw [he] at htx
      simp only [Option.some.injEq] at htx
      rw [← htx]

/-- Witness for C2: one conjunct of the theorem applied at concrete
inputs. -/
theorem invoke_outer_account_order_witness :
    (invokeKeys (pk 1) (pk 3) (pk 2) ⟨pk 4, [], []⟩ [])[0]? =
      some ⟨pk 1, false, true⟩ :=
  (invoke_outer_account_order (pk 9) (pk 1) (pk 2) (pk 3) ⟨pk 4, [], []⟩ []).1

/-- C4: in the outer account list of an Invoke, the derived address's
last (and, under the distinctness of the other fixed entries, only)
occurrence is the fixed slot 1, so every inner reference to the derived
address is encoded with index 1 however often it occurs; and every inner
reference to the wallet account itself survives the derived-address
filter into the outer tail unchanged. -/
theorem invoke_derived_and_wallet_references (w f d : List Nat)
    (internal : TransactionInstruction) (signers : List (List Nat))
    (hf : f ≠ d) (hs : d ∉ signers) (hpid : internal.programId ≠ d) :
    lastIdx (invokeKeys w d f internal signers) d = some 1
    ∧ (∀ k ∈ internal.keys, k.pubkey = d →
        encodeKeyRef (invokeKeys w d f internal signers) k =
          some [1, metadataByte k.isSigner k.isWritable])
    ∧ (w ≠ d → ∀ k ∈ internal.keys, k.pubkey = w →
        k ∈ (invokeKeys w d f internal signers).drop (4 + signers.length)) := by
  have hnone : lastIdx (⟨f, true, true⟩ ::
      ((signers.map fun s => (⟨s, true, false⟩ : AccountMeta)) ++
        [⟨internal.programId, false, false⟩] ++
        internal.keys.filter fun k => decide (k.pubkey ≠ d))) d = none := by
    rw [lastIdx_eq_none_iff]
    intro hmem
    simp only [List.map_cons, List.mem_cons, List.map_append, List.mem_append,
      List.mem_map, List.map_map] at hmem
    rcases hmem with h1 | (h2 | h3) | h4
    · exact hf h1.symm
    · obtain ⟨s, hsm, hsd⟩ := h2
      simp only [Function.comp] at hsd
      exact hs (hsd ▸ hsm)
    · have h3x : d = internal.programId := by simpa using h3
      exact hpid h3x.symm
    · obtain ⟨k, hkm, hkd⟩ := h4
      have := (List.mem_filter.mp hkm).2
      exact (of_decide_eq_true this) hkd
  have h2 : lastIdx (⟨d, false, true⟩ ::
      (⟨f, true, true⟩ ::
        ((signers.map fun s => (⟨s, true, false⟩ : AccountMeta)) ++
          [⟨internal.programId, false, false⟩] ++
          internal.keys.filter fun k => decide (k.pubkey ≠ d)))) d = some 0 := by
    rw [lastIdx_cons, hnone]
    show (if (⟨d, false, true⟩ : AccountMeta).pubkey = d then some (0 : Nat)
      else none) = some 0
    rw [if_pos rfl]
  have h1 : lastIdx (invokeKeys w d f internal signers) d = some 1 := by
    unfold invokeKeys
    rw [lastIdx_cons, h2]
  refine ⟨h1, ?_, ?_⟩
  · intro k hk hkd
    simp [encodeKeyRef, hkd, h1]
  · intro hw k hk hkw
    rw [invokeKeys_drop_eq]
    refine List.mem_filter.mpr ⟨hk, ?_⟩
    rw [hkw]
    exact decide_eq_true hw

/-- Witness for C4 at concrete inputs. -/
theorem invoke_derived_and_wallet_references_witness :
    pk 2 ≠ pk 3 ∧
      lastIdx (invokeKeys (pk 1) (pk 3) (pk 2)
        ⟨pk 4, [⟨pk 3, false, false⟩], []⟩ []) (pk 3) = some 1 :=
  ⟨by decide,
    (invoke_derived_and_wallet_references (pk 1) (pk 2) (pk 3)
      ⟨pk 4, [⟨pk 3, false, false⟩], []⟩ [] (by decide) (by decide)
      (by decide)).1⟩

theorem encodeOwnerEntry_length (o : OwnerEntry) (h : o.pubkey.length = 32) :
    (encodeOwnerEntry o).length = 34 := by
  simp [encodeOwnerEntry, u16le, h]

theorem flatten_fixed_drop (l : List OwnerEntry) (i : Nat)
    (h : ∀ o ∈ l, (encodeOwnerEntry o).length = 34) :
    ((l.map encodeOwnerEntry).flatten).drop (34 * i) =
      ((l.drop i).map encodeOwnerEntry).flatten := by
  induction i generalizing l with
  | zero => simp
  | succ n ih =>
    cases l with
    | nil => simp
    | cons o rest =>
      have ho : (encodeOwnerEntry o).length = 34 := h o (by simp)
      have h34 : 34 * (n + 1) = (encodeOwnerEntry o).length + 34 * n := by
        rw [ho]
        ring
      simp only [List.map_cons, List.flatten_cons]
      rw [h34, List.drop_append]
      rw [ih rest (fun o2 ho2 => h o2 (by simp [ho2]))]
      simp

theorem walletAccountEncode_length (w : WalletAccount)
    (hpk : ∀ o ∈ w.owners, o.pubkey.length = 32) :
    (walletAccountEncode w).length = 1 + 34 * w.owners.length := by
  simp only [walletAccountEncode, List.length_cons]
  rw [List.length_flatten]
  have hall : ∀ x ∈ (w.owners.map encodeOwnerEntry).map List.length, x = 34 := by
    intro x hx
    simp only [List.map_map, List.mem_map, Function.comp] at hx
    obtain ⟨o, ho, rfl⟩ := hx
    exact encodeOwnerEntry_length o (hpk o ho)
  rw [List.eq_replicate_of_mem hall]
  simp only [List.sum_replicate, List.length_map, smul_eq_mul]
  omega

/-- C7: the wallet account layout is one state byte (0 = Uninitialized,
1 = Initialized) followed immediately by the owner entries, each 34 bytes
(32 pubkey bytes then the weight as little-endian `u16`), with no other
fields: the encoding of a table of `C` owners is exactly `1 + 34 * C`
bytes, as is the layout's declared span, and entry `i` occupies the 34
bytes starting at offset `1 + 34 * i`. -/
theorem wallet_account_layout (w : WalletAccount) (C : Nat)
    (hC : w.owners.length = C)
    (hpk : ∀ o ∈ w.owners, o.pubkey.length = 32) :
    (walletAccountEncode w).length = 1 + 34 * C
    ∧ walletAccountSpan C = 1 + 34 * C
    ∧ (walletAccountEncode w).head? = some w.state.toByte
    ∧ WalletState.toByte .uninitialized = 0
    ∧ WalletState.toByte .initialized = 1
    ∧ ∀ i, i < C → ∃ o, w.owners[i]? = some o ∧
        ((walletAccountEncode w).drop (1 + 34 * i)).take 34 =
          o.pubkey ++ u16le o.weight
        ∧ (o.pubkey ++ u16le o.weight).length = 34 := by
  refine ⟨hC ▸ walletAccountEncode_length w hpk, by simp [walletAccountSpan],
    rfl, rfl, rfl, ?_⟩
  intro i hi
  have hi2 : i < w.owners.length := hC ▸ hi
  have hmem : w.owners[i] ∈ w.owners := List.getElem_mem hi2
  have hlen : (encodeOwnerEntry w.owners[i]).length = 34 :=
    encodeOwnerEntry_length _ (hpk _ hmem)
  refine ⟨w.owners[i], List.getElem?_eq_getElem hi2, ?_, ?_⟩
  · have hdrop : (walletAccountEncode w).drop (1 + 34 * i) =
        ((w.owners.drop i).map encodeOwnerEntry).flatten := by
      simp only [walletAccountEncode]
      rw [Nat.add_comm 1 (34 * i), List.drop_succ_cons]
      exact flatten_fixed_drop w.owners i
        (fun o ho => encodeOwnerEntry_length o (hpk o ho))
    rw [hdrop, List.drop_eq_getElem_cons hi2]
    simp only [List.map_cons, List.flatten_cons]
    rw [List.take_left' hlen]
    rfl
  · simpa [encodeOwnerEntry] using hlen

/-- Witness for C7 at a concrete one-owner account. -/
theorem wallet_account_layout_witness :
    ((⟨.initialized, [⟨pk 5, 1000⟩]⟩ : WalletAccount).owners).length = 1 ∧
      (walletAccountEncode ⟨.initialized, [⟨pk 5, 1000⟩]⟩).length = 1 + 34 * 1 :=
  ⟨by decide,
    (wallet_account_layout ⟨.initialized, [⟨pk 5, 1000⟩]⟩ 1 (by decide)
      (by decide)).1⟩

/-- C8: the spec-modelled authorizer accepts exactly when the summed
weight of the owners whose pubkey is among the flagged signers reaches
the threshold 1000, and a flagged signer absent from the owner table
contributes nothing to the total. -/
theorem authorize_threshold (owners : List OwnerEntry)
    (signers : List (List Nat)) :
    (authorize owners signers = true ↔
      1000 ≤ ((owners.filter fun o => decide (o.pubkey ∈ signers)).map
        OwnerEntry.weight).sum)
    ∧ (∀ s, (∀ o ∈ owners, o.pubkey ≠ s) →
        totalWeight owners (s :: signers) = totalWeight owners signers
        ∧ authorize owners (s :: signers) = authorize owners signers) := by
  constructor
  · simp [authorize, totalWeight, THRESHOLD]
  · intro s hs
    have ht : totalWeight owners (s :: signers) = totalWeight owners signers := by
      unfold totalWeight
      have hfil : (owners.filter fun o => decide (o.pubkey ∈ s :: signers)) =
          owners.filter fun o => decide (o.pubkey ∈ signers) := by
        apply List.filter_congr
        intro o ho
        have hnos : o.pubkey ≠ s := hs o ho
        simp [List.mem_cons, hnos]
      rw [hfil]
    exact ⟨ht, by simp [authorize, ht]⟩

/-- Witness for C8: the zero-contribution part applied at a concrete
signer outside an empty owner table. -/
theorem authorize_threshold_witness :
    totalWeight [] (pk 1 :: []) = totalWeight [] []
    ∧ authorize [] (pk 1 :: []) = authorize [] [] :=
  (authorize_threshold [] []).2 (pk 1) (by simp)

end ContractWallet
